import Mathlib

/-!
Shallow embedding of the point service and the in-memory keyed lock of
`hanghae-plus-lite-tdd-nodejs`.

The embedding follows the TypeScript sources:
  * `src/point/point.service.ts` — `PointService.chargePoint`, `usePoint`,
    `getPointHistories` (translated as pure state-passing functions on `DB`);
  * `src/utils/memory-lock.manager.ts` — `MemoryLockManager.withLock`
    (translated as a wait-loop outcome function plus explicit transition
    steps on a `LockState`).

The balance store (`UserPointTable`) and history store (`PointHistoryTable`)
are not part of the core sources; they are modelled from the spec (§6):
`get` returns a zero-value record for a missing user, `put` overwrites,
`append` adds one entry to an insertion-ordered append-only log.

`Date.now()` is modelled by an explicit `now : Int` argument: each service
call draws one timestamp `updateTime` (point.service.ts lines 36 and 71) and
uses it both for the appended history row and the returned snapshot.
-/

namespace PointSys

/-- `TransactionType` from `point.model.ts`: CHARGE or USE. -/
inductive TransactionType where
  | CHARGE : TransactionType
  | USE : TransactionType
deriving DecidableEq, Repr

/-- `UserPoint` from `point.model.ts`: `{ id, point, updateMillis }`. -/
structure UserPoint where
  id : Int
  point : Int
  updateMillis : Int
deriving DecidableEq, Repr

/-- `PointHistory` from `point.model.ts`:
`{ id, userId, amount, type, timeMillis }`. -/
structure PointHistory where
  id : Nat
  userId : Int
  amount : Int
  type : TransactionType
  timeMillis : Int
deriving DecidableEq, Repr

/-- Combined store state: the balance table (userId ↦ UserPoint record),
the append-only history log in insertion order, and the next history id.
Modelled from the spec: the two abstract stores of §6 backing
`UserPointTable` and `PointHistoryTable`, whose implementations are not in
the core sources. -/
structure DB where
  userPoints : List (Int × UserPoint)
  histories : List PointHistory
  cursor : Nat
deriving DecidableEq, Repr

/-- Modelled from the spec: `UserPointTable.selectById` — `get(userId)`
returns the stored Balance, or a zero-value record (amount 0, stamped with
the current time) when the user has no record yet (§6: "zero-value if
absent, never fails for a missing user"). -/
def selectById (table : List (Int × UserPoint)) (userId : Int) (now : Int) : UserPoint :=
  (table.lookup userId).getD ⟨userId, 0, now⟩

/-- Modelled from the spec: `UserPointTable.insertOrUpdate` — `put(userId,
amount, updatedAtMillis)` overwrites (or creates) the single record of
`userId` (§6). The table is keyed, so the old binding is dropped. -/
def insertOrUpdate (table : List (Int × UserPoint)) (userId point now : Int) :
    List (Int × UserPoint) :=
  (userId, ⟨userId, point, now⟩) :: table.filter (fun p => p.1 != userId)

/-- Modelled from the spec: `PointHistoryTable.insert` — `append(userId,
amount, kind, atMillis)` appends exactly one entry to the insertion-ordered
log (§3: "Append-only; ordering of the log is insertion order"), with an
opaque fresh id. -/
def insertHistory (db : DB) (userId amount : Int) (type : TransactionType)
    (timeMillis : Int) : DB :=
  { db with
    histories := db.histories ++ [⟨db.cursor, userId, amount, type, timeMillis⟩]
    cursor := db.cursor + 1 }

/-- The two domain errors thrown by `PointService` (both surface as
`BadRequestException` in the source, distinguished by message):
`InvalidAmount` ("충전/사용 금액은 0보다 커야 합니다") and
`InsufficientBalance` ("포인트가 부족합니다"). -/
inductive PointError where
  | invalidAmount : PointError
  | insufficientBalance : PointError
deriving DecidableEq, Repr

/-- `PointService.chargePoint` (point.service.ts lines 28–52), the critical
section body run under `withLock`. State passing is explicit: the result
pairs the thrown-or-returned value with the store state after the call. A
throw happens before any mutation, so the error branch returns `db`
unchanged. -/
def chargePoint (db : DB) (userId amount now : Int) :
    Except PointError UserPoint × DB :=
  if amount ≤ 0 then
    (.error .invalidAmount, db)
  else
    let userPoint := selectById db.userPoints userId now
    let chargedPoint := userPoint.point + amount
    let updateTime := now
    let db1 := { db with userPoints := insertOrUpdate db.userPoints userId chargedPoint updateTime }
    let db2 := insertHistory db1 userId amount .CHARGE updateTime
    (.ok ⟨userId, chargedPoint, updateTime⟩, db2)

/-- `PointService.usePoint` (point.service.ts lines 57–86), the critical
section body run under `withLock`. Validation and the balance guard throw
before any mutation. -/
def usePoint (db : DB) (userId amount now : Int) :
    Except PointError UserPoint × DB :=
  if amount ≤ 0 then
    (.error .invalidAmount, db)
  else
    let userPoint := selectById db.userPoints userId now
    if userPoint.point < amount then
      (.error .insufficientBalance, db)
    else
      let usedPoint := userPoint.point - amount
      let updateTime := now
      let db1 := { db with userPoints := insertOrUpdate db.userPoints userId usedPoint updateTime }
      let db2 := insertHistory db1 userId amount .USE updateTime
      (.ok ⟨userId, usedPoint, updateTime⟩, db2)

/-- Modelled from the spec: `PointHistoryTable.selectAllByUserId` — filter
the insertion-ordered log to the entries of one user (§6 `listByUser`,
order inherited from the §3 insertion-ordered log). -/
def selectAllByUserId (histories : List PointHistory) (userId : Int) :
    List PointHistory :=
  histories.filter (fun h => h.userId == userId)

/-- One step of the stable descending insertion sort: place `a` after every
element with a strictly larger `timeMillis` and before the rest. -/
def insertDesc (a : PointHistory) : List PointHistory → List PointHistory
  | [] => [a]
  | x :: xs => if a.timeMillis < x.timeMillis then x :: insertDesc a xs else a :: x :: xs

/-- `histories.sort((a, b) => b.timeMillis - a.timeMillis)` from
point.service.ts line 94: ECMAScript 2019 `Array.prototype.sort` is stable,
so this comparator yields the stable sort by `timeMillis` descending —
embedded as a stable insertion sort (any two stable sorts agree
extensionally). -/
def sortByTimeMillisDesc : List PointHistory → List PointHistory
  | [] => []
  | x :: xs => insertDesc x (sortByTimeMillisDesc xs)

/-- `PointService.getPointHistories` (point.service.ts lines 91–95). -/
def getPointHistories (db : DB) (userId : Int) : List PointHistory :=
  sortByTimeMillisDesc (selectAllByUserId db.histories userId)

/-- The balance currently stored for `userId` (the `.point` of the record
`selectById` yields; the lazily-created record has balance 0, whatever its
timestamp). -/
def balanceOf (db : DB) (userId : Int) : Int :=
  (selectById db.userPoints userId 0).point

/-! ## The in-memory keyed lock (`memory-lock.manager.ts`)

`MemoryLockManager` holds two `Map<string, _>`s: `locks` (key ↦ the current
holder's `lockPromise`) and `timeouts` (key ↦ the registered `setTimeout`
handle). Promises and timers are modelled by numeric identities; two ghost
fields record the externally visible effects `clearTimeout` and `resolve`.
-/

/-- State of `MemoryLockManager`: the `locks` and `timeouts` maps (value =
identity of the stored promise / timer), plus ghost logs of the timer ids
passed to `clearTimeout` and the promise ids on which `resolve` was
called. -/
structure LockState where
  locks : List (String × Nat)
  timeouts : List (String × Nat)
  cancelled : List Nat
  resolved : List Nat
deriving DecidableEq, Repr

/-- `Map.set` (extensionally: drop any old binding of the key, bind it to
the new value). -/
def lkSet (m : List (String × Nat)) (k : String) (v : Nat) : List (String × Nat) :=
  (k, v) :: m.filter (fun p => p.1 != k)

/-- `Map.delete`. -/
def lkDel (m : List (String × Nat)) (k : String) : List (String × Nat) :=
  m.filter (fun p => p.1 != k)

/-- `Map.get` (`none` = `undefined`). -/
def lkGet (m : List (String × Nat)) (k : String) : Option Nat :=
  m.lookup k

/-- Lock acquisition by holder `i` (memory-lock.manager.ts lines 25–35),
run once the wait loop has observed the key free: create `lockPromise` `i`
and store it under `key` in `locks`, arm timer `i` and store it under `key`
in `timeouts`. -/
def acquireStep (s : LockState) (key : String) (i : Nat) : LockState :=
  { s with locks := lkSet s.locks key i, timeouts := lkSet s.timeouts key i }

/-- The hold-timeout callback of holder `i` firing (memory-lock.manager.ts
lines 31–34): `this.locks.delete(key); resolve!()`. Note it does not touch
the `timeouts` map. -/
def holdFireStep (s : LockState) (key : String) (i : Nat) : LockState :=
  { s with locks := lkDel s.locks key, resolved := s.resolved ++ [i] }

/-- The `finally` cleanup of holder `i` (memory-lock.manager.ts lines
39–45): `clearTimeout(this.timeouts.get(key)!)` (a no-op when the map has
no entry), `this.timeouts.delete(key)`, `this.locks.delete(key)`,
`resolve!()`. It operates on whatever currently sits under `key`, with no
check that the entries are still holder `i`'s own. -/
def releaseStep (s : LockState) (key : String) (i : Nat) : LockState :=
  { locks := lkDel s.locks key
    timeouts := lkDel s.timeouts key
    cancelled :=
      match lkGet s.timeouts key with
      | some t => s.cancelled ++ [t]
      | none => s.cancelled
    resolved := s.resolved ++ [i] }

/-- Outcome of the wait loop (memory-lock.manager.ts lines 18–23). -/
inductive WaitOutcome where
  | acquired : WaitOutcome
  | timedOut : WaitOutcome
deriving DecidableEq, Repr

/-- The wait loop of `withLock` (lines 16–23): `waits` is the sequence of
`Date.now()` readings at the loop iterations that still observed
`locks.has(key)`; the loop throws as soon as a reading exceeds
`maxWaitTime`, and exits into acquisition when the key is observed free
(the list is exhausted). -/
def waitLoop (maxWaitTime : Int) : List Int → WaitOutcome
  | [] => .acquired
  | now :: rest => if now > maxWaitTime then .timedOut else waitLoop maxWaitTime rest

/-- The error thrown at line 20: `Lock timeout for key: ...`. -/
inductive LockError where
  | lockWaitTimeout : LockError
deriving DecidableEq, Repr

/-- One full `withLock(key, operation, timeoutMs)` call in which the hold
timer does not fire (the critical section finishes within `timeoutMs`):
wait (budget `t0 + timeoutMs`, line 16), then on success acquire as holder
`i`, run `operation` on the store, and run the `finally` cleanup. A wait
timeout throws before the lock is created: the call returns with every
piece of state untouched and `operation` never invoked. -/
def withLockRun {σ α : Type} (lock : LockState) (store : σ) (key : String)
    (i : Nat) (t0 timeoutMs : Int) (waits : List Int)
    (operation : σ → Except PointError α × σ) :
    Except LockError (Except PointError α) × LockState × σ :=
  match waitLoop (t0 + timeoutMs) waits with
  | .timedOut => (.error .lockWaitTimeout, lock, store)
  | .acquired =>
      let s1 := acquireStep lock key i
      let r := operation store
      (.ok r.1, releaseStep s1 key i, r.2)

/-- The two timeout durations a `withLock(key, operation, timeoutMs)` call
actually uses: the wait budget is `timeoutMs` (line 16, `maxWaitTime =
Date.now() + timeoutMs`) and the hold timer is armed for `timeoutMs` (line
31–34, `setTimeout(..., timeoutMs)`) — one and the same parameter. -/
structure LockTimeouts where
  waitTimeoutMs : Int
  holdTimeoutMs : Int
deriving DecidableEq, Repr

/-- The pair of bounds induced by the single `timeoutMs` parameter of
`withLock` (default 5000, line 13). -/
def withLockTimeouts (timeoutMs : Int) : LockTimeouts :=
  ⟨timeoutMs, timeoutMs⟩

/-- The proposition that some `withLock` call can use a wait bound different
from its hold bound. -/
def timeoutsIndependent : Prop :=
  ∃ t : Int, (withLockTimeouts t).waitTimeoutMs ≠ (withLockTimeouts t).holdTimeoutMs

/-! ## Sequences of service calls

The keyed mutex serializes every `chargePoint`/`usePoint` critical section
for a fixed user (cooperative single-threaded scheduling plus `withLock` on
the key `user:<id>`), so a concurrent execution in which no hold-timeout
fires is exactly a sequential execution of the calls in some order; the
interleaving is captured by quantifying over that order. -/

/-- Which mutating operation a call performs. -/
inductive OpKind where
  | charge : OpKind
  | use : OpKind
deriving DecidableEq, Repr

/-- One charge/use call against the fixed user under consideration: its
kind, its amount, and the `Date.now()` reading of its critical section. -/
structure OpCall where
  kind : OpKind
  amount : Int
  now : Int
deriving DecidableEq, Repr

/-- Dispatch one call to the service. -/
def applyCall (db : DB) (userId : Int) (c : OpCall) :
    Except PointError UserPoint × DB :=
  match c.kind with
  | .charge => chargePoint db userId c.amount c.now
  | .use => usePoint db userId c.amount c.now

/-- Run the calls in order; returns `some` of the final store exactly when
every call is accepted. -/
def runCalls (db : DB) (userId : Int) : List OpCall → Option DB
  | [] => some db
  | c :: rest =>
      match applyCall db userId c with
      | (.ok _, db1) => runCalls db1 userId rest
      | (.error _, _) => none

/-- Sum of the amounts of the charge calls. -/
def sumCharges : List OpCall → Int
  | [] => 0
  | c :: rest => (match c.kind with | .charge => c.amount | .use => 0) + sumCharges rest

/-- Sum of the amounts of the use calls. -/
def sumUses : List OpCall → Int
  | [] => 0
  | c :: rest => (match c.kind with | .use => c.amount | .charge => 0) + sumUses rest

/-- One charge/use call with an explicit target user and arbitrary
(possibly invalid) amount. -/
structure AnyCall where
  userId : Int
  kind : OpKind
  amount : Int
  now : Int
deriving DecidableEq, Repr

/-- Apply one call, keeping the store whether the call was accepted or
rejected. -/
def stepCall (db : DB) (c : AnyCall) : DB :=
  match c.kind with
  | .charge => (chargePoint db c.userId c.amount c.now).2
  | .use => (usePoint db c.userId c.amount c.now).2

/-- Apply a whole sequence of calls. -/
def runAll (db : DB) (cs : List AnyCall) : DB :=
  cs.foldl stepCall db

/-! ## Store lemmas -/

theorem lookup_filter_ne (u u' : Int) (h : u' ≠ u)
    (t : List (Int × UserPoint)) :
    (t.filter (fun p => p.1 != u)).lookup u' = t.lookup u' := by
  induction t with
  | nil => rfl
  | cons hd tl ih =>
    obtain ⟨k, v⟩ := hd
    by_cases hku : k = u
    · subst hku
      have h2 : (u' == k) = false := beq_eq_false_iff_ne.mpr h
      simp [List.filter, List.lookup, h2, ih]
    · have h1 : (k != u) = true := by simp [hku]
      simp only [List.filter, h1, List.lookup]
      cases hk : u' == k <;> simp [hk, ih]

theorem lookup_insertOrUpdate_self (t : List (Int × UserPoint))
    (u point now : Int) :
    (insertOrUpdate t u point now).lookup u = some ⟨u, point, now⟩ := by
  simp [insertOrUpdate, List.lookup]

theorem lookup_insertOrUpdate_ne (t : List (Int × UserPoint))
    (u u' point now : Int) (h : u' ≠ u) :
    (insertOrUpdate t u point now).lookup u' = t.lookup u' := by
  have h2 : (u' == u) = false := beq_eq_false_iff_ne.mpr h
  simp [insertOrUpdate, List.lookup, h2, lookup_filter_ne u u' h t]

theorem selectById_point_now_irrel (t : List (Int × UserPoint))
    (u n m : Int) : (selectById t u n).point = (selectById t u m).point := by
  unfold selectById
  cases t.lookup u <;> simp

theorem selectById_insertOrUpdate_self (t : List (Int × UserPoint))
    (u point now n : Int) :
    selectById (insertOrUpdate t u point now) u n = ⟨u, point, now⟩ := by
  simp [selectById, lookup_insertOrUpdate_self]

theorem selectById_insertOrUpdate_ne (t : List (Int × UserPoint))
    (u u' point now n : Int) (h : u' ≠ u) :
    selectById (insertOrUpdate t u point now) u' n = selectById t u' n := by
  simp [selectById, lookup_insertOrUpdate_ne t u u' point now h]

theorem selectById_point_eq_balanceOf (db : DB) (u now : Int) :
    (selectById db.userPoints u now).point = balanceOf db u :=
  selectById_point_now_irrel db.userPoints u now 0

/-! ## Normal forms of the two mutations -/

theorem chargePoint_of_pos (db : DB) (u a now : Int) (h : 0 < a) :
    chargePoint db u a now =
      (.ok ⟨u, balanceOf db u + a, now⟩,
       { userPoints := insertOrUpdate db.userPoints u (balanceOf db u + a) now
         histories := db.histories ++ [⟨db.cursor, u, a, .CHARGE, now⟩]
         cursor := db.cursor + 1 }) := by
  have hn : ¬ a ≤ 0 := not_le.mpr h
  have hp := selectById_point_eq_balanceOf db u now
  simp [chargePoint, hn, insertHistory, hp]

theorem usePoint_of_insufficient (db : DB) (u a now : Int) (h : 0 < a)
    (hlt : balanceOf db u < a) :
    usePoint db u a now = (.error .insufficientBalance, db) := by
  have hn : ¬ a ≤ 0 := not_le.mpr h
  have hp := selectById_point_eq_balanceOf db u now
  simp [usePoint, hn, hp, hlt]

theorem usePoint_of_sufficient (db : DB) (u a now : Int) (h : 0 < a)
    (hge : a ≤ balanceOf db u) :
    usePoint db u a now =
      (.ok ⟨u, balanceOf db u - a, now⟩,
       { userPoints := insertOrUpdate db.userPoints u (balanceOf db u - a) now
         histories := db.histories ++ [⟨db.cursor, u, a, .USE, now⟩]
         cursor := db.cursor + 1 }) := by
  have hn : ¬ a ≤ 0 := not_le.mpr h
  have hp := selectById_point_eq_balanceOf db u now
  have hnlt : ¬ balanceOf db u < a := not_lt.mpr hge
  simp [usePoint, hn, hp, hnlt, insertHistory]

/-! ## Claims -/

/-- Claim C2: for every userId and every amount > 0, `chargePoint` returns
a balance equal to the previously stored balance plus the amount, persists
that new amount for the user, and appends exactly one history entry with
that userId, that amount and kind CHARGE; the returned balance is the
post-charge snapshot. -/
theorem c2_charge_correct (db : DB) (u a now : Int) (h : 0 < a) :
    ∃ db' : DB,
      chargePoint db u a now = (.ok ⟨u, balanceOf db u + a, now⟩, db')
      ∧ balanceOf db' u = balanceOf db u + a
      ∧ db'.histories = db.histories ++ [⟨db.cursor, u, a, .CHARGE, now⟩] := by
  refine ⟨_, chargePoint_of_pos db u a now h, ?_, rfl⟩
  simp [balanceOf, selectById_insertOrUpdate_self]

/-- Witness for C2: charging 100 onto an empty store for user 1. -/
theorem c2_charge_correct_witness :
    0 < (100 : Int) ∧
    ∃ db' : DB,
      chargePoint ⟨[], [], 0⟩ 1 100 7
        = (.ok ⟨1, balanceOf ⟨[], [], 0⟩ 1 + 100, 7⟩, db')
      ∧ balanceOf db' 1 = balanceOf ⟨[], [], 0⟩ 1 + 100
      ∧ db'.histories = DB.histories ⟨[], [], 0⟩ ++ [⟨0, 1, 100, .CHARGE, 7⟩] :=
  ⟨by norm_num, c2_charge_correct ⟨[], [], 0⟩ 1 100 7 (by norm_num)⟩

/-- Claim C3: for every userId and amount > 0, `usePoint` fails with
InsufficientBalance whenever the stored balance is strictly below the
amount, leaving both stores untouched; with sufficient balance it persists
the decremented amount, appends exactly one USE history entry, and returns
the post-use snapshot. -/
theorem c3_use_correct (db : DB) (u a now : Int) (h : 0 < a) :
    (balanceOf db u < a → usePoint db u a now = (.error .insufficientBalance, db))
    ∧ (a ≤ balanceOf db u →
        ∃ db' : DB,
          usePoint db u a now = (.ok ⟨u, balanceOf db u - a, now⟩, db')
          ∧ balanceOf db' u = balanceOf db u - a
          ∧ db'.histories = db.histories ++ [⟨db.cursor, u, a, .USE, now⟩]) := by
  constructor
  · intro hlt
    exact usePoint_of_insufficient db u a now h hlt
  · intro hge
    refine ⟨_, usePoint_of_sufficient db u a now h hge, ?_, rfl⟩
    simp [balanceOf, selectById_insertOrUpdate_self]

/-- Witness for C3: user 1 holds 50; using 80 fails without mutation, and
on a store holding 100 using 80 succeeds. -/
theorem c3_use_correct_witness :
    0 < (80 : Int) ∧
    ((balanceOf ⟨[(1, ⟨1, 50, 0⟩)], [], 0⟩ 1 < 80 →
        usePoint ⟨[(1, ⟨1, 50, 0⟩)], [], 0⟩ 1 80 9
          = (.error .insufficientBalance, ⟨[(1, ⟨1, 50, 0⟩)], [], 0⟩))
     ∧ (80 ≤ balanceOf ⟨[(1, ⟨1, 50, 0⟩)], [], 0⟩ 1 →
        ∃ db' : DB,
          usePoint ⟨[(1, ⟨1, 50, 0⟩)], [], 0⟩ 1 80 9
            = (.ok ⟨1, balanceOf ⟨[(1, ⟨1, 50, 0⟩)], [], 0⟩ 1 - 80, 9⟩, db')
          ∧ balanceOf db' 1 = balanceOf ⟨[(1, ⟨1, 50, 0⟩)], [], 0⟩ 1 - 80
          ∧ db'.histories
              = DB.histories ⟨[(1, ⟨1, 50, 0⟩)], [], 0⟩ ++ [⟨0, 1, 80, .USE, 9⟩])) :=
  ⟨by norm_num, c3_use_correct ⟨[(1, ⟨1, 50, 0⟩)], [], 0⟩ 1 80 9 (by norm_num)⟩

/-- Claim C4: for every userId and every amount ≤ 0, both mutations fail
with InvalidAmount and leave the store (balances and history) untouched. -/
theorem c4_invalid_amount (db : DB) (u a now : Int) (h : a ≤ 0) :
    chargePoint db u a now = (.error .invalidAmount, db)
    ∧ usePoint db u a now = (.error .invalidAmount, db) := by
  constructor <;> simp [chargePoint, usePoint, h]

/-- Witness for C4: charging or using 0 points fails for user 3. -/
theorem c4_invalid_amount_witness :
    (0 : Int) ≤ 0 ∧
    (chargePoint ⟨[], [], 0⟩ 3 0 5 = (.error .invalidAmount, ⟨[], [], 0⟩)
     ∧ usePoint ⟨[], [], 0⟩ 3 0 5 = (.error .invalidAmount, ⟨[], [], 0⟩)) :=
  ⟨le_refl 0, c4_invalid_amount ⟨[], [], 0⟩ 3 0 5 (le_refl 0)⟩

/-- Claim C10: every successful charge or use appends exactly one history
entry whose `timeMillis` equals the `updateMillis` of the returned balance
snapshot — one `Date.now()` reading (`updateTime`) serves both. -/
theorem c10_shared_timestamp (db db' : DB) (u a now : Int) (up : UserPoint)
    (h : chargePoint db u a now = (.ok up, db')
         ∨ usePoint db u a now = (.ok up, db')) :
    ∃ e : PointHistory,
      db'.histories = db.histories ++ [e] ∧ e.timeMillis = up.updateMillis := by
  rcases h with h | h
  · by_cases ha : a ≤ 0
    · simp [chargePoint, ha] at h
    · rw [chargePoint_of_pos db u a now (not_le.mp ha)] at h
      obtain ⟨h1, h2⟩ := Prod.mk.injEq .. ▸ h
      refine ⟨⟨db.cursor, u, a, .CHARGE, now⟩, ?_, ?_⟩
      · rw [← h2]
      · rw [← Except.ok.inj h1]
  · by_cases ha : a ≤ 0
    · simp [usePoint, ha] at h
    · by_cases hlt : balanceOf db u < a
      · rw [usePoint_of_insufficient db u a now (not_le.mp ha) hlt] at h
        simp at h
      · rw [usePoint_of_sufficient db u a now (not_le.mp ha) (not_lt.mp hlt)] at h
        obtain ⟨h1, h2⟩ := Prod.mk.injEq .. ▸ h
        refine ⟨⟨db.cursor, u, a, .USE, now⟩, ?_, ?_⟩
        · rw [← h2]
        · rw [← Except.ok.inj h1]

/-- Witness for C10: a successful charge of 40 for user 2. -/
theorem c10_shared_timestamp_witness :
    (chargePoint ⟨[], [], 0⟩ 2 40 11
        = (.ok ⟨2, 40, 11⟩, ⟨[(2, ⟨2, 40, 11⟩)], [⟨0, 2, 40, .CHARGE, 11⟩], 1⟩)
     ∨ usePoint ⟨[], [], 0⟩ 2 40 11
        = (.ok ⟨2, 40, 11⟩, ⟨[(2, ⟨2, 40, 11⟩)], [⟨0, 2, 40, .CHARGE, 11⟩], 1⟩)) ∧
    ∃ e : PointHistory,
      DB.histories ⟨[(2, ⟨2, 40, 11⟩)], [⟨0, 2, 40, .CHARGE, 11⟩], 1⟩
          = DB.histories ⟨[], [], 0⟩ ++ [e]
      ∧ e.timeMillis = UserPoint.updateMillis ⟨2, 40, 11⟩ :=
  ⟨Or.inl rfl,
   c10_shared_timestamp ⟨[], [], 0⟩ ⟨[(2, ⟨2, 40, 11⟩)], [⟨0, 2, 40, .CHARGE, 11⟩], 1⟩
     2 40 11 ⟨2, 40, 11⟩ (Or.inl rfl)⟩

/-! ## Order-independence of accepted call sequences (C1) -/

/-- Net effect of one accepted call on the target user's balance. -/
def opDelta (c : OpCall) : Int :=
  match c.kind with
  | .charge => c.amount
  | .use => -c.amount

theorem sumCharges_sub_sumUses_cons (c : OpCall) (rest : List OpCall) :
    sumCharges (c :: rest) - sumUses (c :: rest)
      = opDelta c + (sumCharges rest - sumUses rest) := by
  cases hk : c.kind <;> simp [sumCharges, sumUses, opDelta, hk] <;> ring

theorem balance_applyCall_ok (db db1 : DB) (u : Int) (c : OpCall)
    (r : UserPoint) (h : applyCall db u c = (.ok r, db1)) :
    balanceOf db1 u = balanceOf db u + opDelta c := by
  cases hk : c.kind
  case charge =>
    rw [applyCall, hk] at h
    by_cases ha : c.amount ≤ 0
    · simp [chargePoint, ha] at h
    · rw [chargePoint_of_pos db u c.amount c.now (not_le.mp ha)] at h
      obtain ⟨-, h2⟩ := Prod.mk.injEq .. ▸ h
      rw [← h2]
      simp [balanceOf, selectById_insertOrUpdate_self, opDelta, hk]
  case use =>
    rw [applyCall, hk] at h
    by_cases ha : c.amount ≤ 0
    · simp [usePoint, ha] at h
    · by_cases hlt : balanceOf db u < c.amount
      · rw [usePoint_of_insufficient db u c.amount c.now (not_le.mp ha) hlt] at h
        simp at h
      · rw [usePoint_of_sufficient db u c.amount c.now (not_le.mp ha) (not_lt.mp hlt)] at h
        obtain ⟨-, h2⟩ := Prod.mk.injEq .. ▸ h
        rw [← h2]
        simp [balanceOf, selectById_insertOrUpdate_self, opDelta, hk]
        ring

/-- Claim C1: for a fixed userId, running the N concurrent charge/use calls
with every call accepted leaves the final balance equal to the initial
balance plus the summed charges minus the summed uses, with no lost update.
The keyed mutex (`withLock` on `user:<id>` under the single-threaded
cooperative scheduler, no hold-timeout expiring) makes every concurrent
execution a sequential run of the calls in some order, so quantifying over
all orders `ops` covers every interleaving. -/
theorem c1_serialized_sum (u : Int) (ops : List OpCall) :
    ∀ db db' : DB, runCalls db u ops = some db' →
      balanceOf db' u = balanceOf db u + (sumCharges ops - sumUses ops) := by
  induction ops with
  | nil =>
    intro db db' h
    simp [runCalls] at h
    subst h
    simp [sumCharges, sumUses]
  | cons c rest ih =>
    intro db db' h
    unfold runCalls at h
    rcases hc : applyCall db u c with ⟨res, db1⟩
    rw [hc] at h
    cases res with
    | error e => simp at h
    | ok r =>
      simp only at h
      have hb := balance_applyCall_ok db db1 u c r hc
      have hrest := ih db1 db' h
      rw [hrest, hb, sumCharges_sub_sumUses_cons]
      ring

/-- Witness for C1: charge 1000, use 300, charge 500 on a fresh user —
final balance 1200 = 0 + 1500 − 300. -/
theorem c1_serialized_sum_witness :
    runCalls ⟨[], [], 0⟩ 1 [⟨.charge, 1000, 1⟩, ⟨.use, 300, 2⟩, ⟨.charge, 500, 3⟩]
      = some ⟨[(1, ⟨1, 1200, 3⟩)],
              [⟨0, 1, 1000, .CHARGE, 1⟩, ⟨1, 1, 300, .USE, 2⟩, ⟨2, 1, 500, .CHARGE, 3⟩], 3⟩
    ∧ balanceOf ⟨[(1, ⟨1, 1200, 3⟩)],
              [⟨0, 1, 1000, .CHARGE, 1⟩, ⟨1, 1, 300, .USE, 2⟩, ⟨2, 1, 500, .CHARGE, 3⟩], 3⟩ 1
      = balanceOf ⟨[], [], 0⟩ 1
        + (sumCharges [⟨.charge, 1000, 1⟩, ⟨.use, 300, 2⟩, ⟨.charge, 500, 3⟩]
           - sumUses [⟨.charge, 1000, 1⟩, ⟨.use, 300, 2⟩, ⟨.charge, 500, 3⟩]) :=
  ⟨rfl,
   c1_serialized_sum 1 [⟨.charge, 1000, 1⟩, ⟨.use, 300, 2⟩, ⟨.charge, 500, 3⟩]
     ⟨[], [], 0⟩ _ rfl⟩

/-! ## Non-negativity invariant (C5) -/

theorem stepCall_nonneg (db : DB) (u : Int) (c : AnyCall)
    (h : 0 ≤ balanceOf db u) : 0 ≤ balanceOf (stepCall db c) u := by
  cases hk : c.kind
  case charge =>
    rw [stepCall, hk]
    by_cases ha : c.amount ≤ 0
    · simpa [chargePoint, ha] using h
    · rw [chargePoint_of_pos db c.userId c.amount c.now (not_le.mp ha)]
      by_cases hu : u = c.userId
      · subst hu
        have hb : 0 ≤ balanceOf db c.userId + c.amount :=
          add_nonneg h (le_of_lt (not_le.mp ha))
        simpa [balanceOf, selectById, lookup_insertOrUpdate_self] using hb
      · simpa [balanceOf, selectById_insertOrUpdate_ne _ _ _ _ _ _ hu] using h
  case use =>
    rw [stepCall, hk]
    by_cases ha : c.amount ≤ 0
    · simpa [usePoint, ha] using h
    · by_cases hlt : balanceOf db c.userId < c.amount
      · rw [usePoint_of_insufficient db c.userId c.amount c.now (not_le.mp ha) hlt]
        exact h
      · rw [usePoint_of_sufficient db c.userId c.amount c.now (not_le.mp ha) (not_lt.mp hlt)]
        by_cases hu : u = c.userId
        · subst hu
          have hb : 0 ≤ balanceOf db c.userId - c.amount :=
            sub_nonneg.mpr (not_lt.mp hlt)
          simpa [balanceOf, selectById, lookup_insertOrUpdate_self] using hb
        · simpa [balanceOf, selectById_insertOrUpdate_ne _ _ _ _ _ _ hu] using h

/-- Claim C5: a user whose stored balance is non-negative keeps a
non-negative stored balance across any sequence of charge/use calls (each
accepted or rejected, against any users): no reachable store has a negative
balance. -/
theorem c5_balance_nonneg (u : Int) (cs : List AnyCall) :
    ∀ db : DB, 0 ≤ balanceOf db u → 0 ≤ balanceOf (runAll db cs) u := by
  induction cs with
  | nil =>
    intro db h
    simpa [runAll] using h
  | cons c rest ih =>
    intro db h
    have h1 : runAll db (c :: rest) = runAll (stepCall db c) rest := by
      simp [runAll]
    rw [h1]
    exact ih (stepCall db c) (stepCall_nonneg db u c h)

/-- Witness for C5: user 1 starts at 5; an accepted use of 3, a rejected
use of 9 and another user's charge leave the balance non-negative. -/
theorem c5_balance_nonneg_witness :
    0 ≤ balanceOf ⟨[(1, ⟨1, 5, 0⟩)], [], 0⟩ 1
    ∧ 0 ≤ balanceOf
        (runAll ⟨[(1, ⟨1, 5, 0⟩)], [], 0⟩
          [⟨1, .use, 3, 10⟩, ⟨1, .use, 9, 11⟩, ⟨2, .charge, 7, 12⟩]) 1 :=
  ⟨by decide,
   c5_balance_nonneg 1 [⟨1, .use, 3, 10⟩, ⟨1, .use, 9, 11⟩, ⟨2, .charge, 7, 12⟩]
     ⟨[(1, ⟨1, 5, 0⟩)], [], 0⟩ (by decide)⟩

/-! ## The history sort (C6) -/

theorem mem_insertDesc (a y : PointHistory) (l : List PointHistory) :
    y ∈ insertDesc a l ↔ y = a ∨ y ∈ l := by
  induction l with
  | nil => simp [insertDesc]
  | cons x xs ih =>
    by_cases hx : a.timeMillis < x.timeMillis
    · simp only [insertDesc, if_pos hx, List.mem_cons, ih]
      tauto
    · simp only [insertDesc, if_neg hx, List.mem_cons]

theorem perm_insertDesc (a : PointHistory) (l : List PointHistory) :
    List.Perm (insertDesc a l) (a :: l) := by
  induction l with
  | nil => exact List.Perm.refl _
  | cons x xs ih =>
    by_cases hx : a.timeMillis < x.timeMillis
    · rw [insertDesc, if_pos hx]
      exact (List.Perm.cons x ih).trans (List.Perm.swap a x xs)
    · rw [insertDesc, if_neg hx]

theorem perm_sortByTimeMillisDesc (l : List PointHistory) :
    List.Perm (sortByTimeMillisDesc l) l := by
  induction l with
  | nil => exact List.Perm.refl _
  | cons x xs ih =>
    exact (perm_insertDesc x (sortByTimeMillisDesc xs)).trans (List.Perm.cons x ih)

theorem pairwise_insertDesc (a : PointHistory) (l : List PointHistory)
    (hl : List.Pairwise (fun p q => q.timeMillis ≤ p.timeMillis) l) :
    List.Pairwise (fun p q => q.timeMillis ≤ p.timeMillis) (insertDesc a l) := by
  induction l with
  | nil => simp [insertDesc]
  | cons x xs ih =>
    rw [List.pairwise_cons] at hl
    obtain ⟨hx_all, hxs⟩ := hl
    by_cases hx : a.timeMillis < x.timeMillis
    · rw [insertDesc, if_pos hx, List.pairwise_cons]
      refine ⟨fun y hy => ?_, ih hxs⟩
      rcases (mem_insertDesc a y xs).mp hy with hy | hy
      · exact hy ▸ le_of_lt hx
      · exact hx_all y hy
    · rw [insertDesc, if_neg hx, List.pairwise_cons]
      refine ⟨fun y hy => ?_, List.pairwise_cons.mpr ⟨hx_all, hxs⟩⟩
      rcases List.mem_cons.mp hy with hy | hy
      · exact hy ▸ not_lt.mp hx
      · exact le_trans (hx_all y hy) (not_lt.mp hx)

theorem pairwise_sortByTimeMillisDesc (l : List PointHistory) :
    List.Pairwise (fun p q => q.timeMillis ≤ p.timeMillis)
      (sortByTimeMillisDesc l) := by
  induction l with
  | nil => simp [sortByTimeMillisDesc]
  | cons x xs ih => exact pairwise_insertDesc x (sortByTimeMillisDesc xs) ih

theorem filter_time_insertDesc (a : PointHistory) (l : List PointHistory) (t : Int) :
    (insertDesc a l).filter (fun h => h.timeMillis == t)
      = if a.timeMillis = t
          then a :: l.filter (fun h => h.timeMillis == t)
          else l.filter (fun h => h.timeMillis == t) := by
  induction l with
  | nil =>
    by_cases ha : a.timeMillis = t <;>
      simp [insertDesc, List.filter_cons, beq_iff_eq, ha]
  | cons x xs ih =>
    by_cases hx : a.timeMillis < x.timeMillis
    · rw [insertDesc, if_pos hx]
      by_cases ha : a.timeMillis = t
      · have hxt : ¬ x.timeMillis = t := by
          rw [← ha]
          exact ne_of_gt hx
        simp [List.filter_cons, beq_iff_eq, hxt, ih, ha]
      · by_cases hxt : x.timeMillis = t <;>
          simp [List.filter_cons, beq_iff_eq, hxt, ih, ha]
    · rw [insertDesc, if_neg hx]
      by_cases ha : a.timeMillis = t <;>
        by_cases hxt : x.timeMillis = t <;>
          simp [List.filter_cons, beq_iff_eq, ha, hxt]

theorem filter_time_sortByTimeMillisDesc (l : List PointHistory) (t : Int) :
    (sortByTimeMillisDesc l).filter (fun h => h.timeMillis == t)
      = l.filter (fun h => h.timeMillis == t) := by
  induction l with
  | nil => rfl
  | cons x xs ih =>
    rw [sortByTimeMillisDesc, filter_time_insertDesc]
    by_cases hx : x.timeMillis = t <;>
      simp [List.filter_cons, beq_iff_eq, hx, ih]

/-- Claim C6 (amended): `getPointHistories` returns exactly the history
entries of the user, sorted by `timeMillis` descending; entries sharing a
timestamp keep the insertion order of the log — the EARLIEST-inserted
entry first (JS `Array.prototype.sort` is stable), not the most recently
inserted one. -/
theorem c6_history_sorted_stable (db : DB) (u : Int) :
    List.Perm (getPointHistories db u) (selectAllByUserId db.histories u)
    ∧ List.Pairwise (fun p q => q.timeMillis ≤ p.timeMillis) (getPointHistories db u)
    ∧ ∀ t : Int,
        (getPointHistories db u).filter (fun h => h.timeMillis == t)
          = (selectAllByUserId db.histories u).filter (fun h => h.timeMillis == t) :=
  ⟨perm_sortByTimeMillisDesc _,
   pairwise_sortByTimeMillisDesc _,
   fun t => filter_time_sortByTimeMillisDesc _ t⟩

/-- Claim C6 counterexample: user 1 has two entries with the same
`timeMillis` 5; `getPointHistories` returns the earlier-inserted entry
(id 0) first, not the more recently inserted one (id 1) as the claim
demands. -/
theorem c6_tie_counterexample :
    getPointHistories ⟨[], [⟨0, 1, 100, .CHARGE, 5⟩, ⟨1, 1, 200, .USE, 5⟩], 2⟩ 1
      = [⟨0, 1, 100, .CHARGE, 5⟩, ⟨1, 1, 200, .USE, 5⟩]
    ∧ getPointHistories ⟨[], [⟨0, 1, 100, .CHARGE, 5⟩, ⟨1, 1, 200, .USE, 5⟩], 2⟩ 1
      ≠ [⟨1, 1, 200, .USE, 5⟩, ⟨0, 1, 100, .CHARGE, 5⟩] := by
  constructor <;> decide

/-! ## Lock claims (C7, C8, C9) -/

/-- Claim C7: a `withLock` call whose accumulated wait exceeds the budget
(`waitLoop` observes a reading past `maxWaitTime`) throws the lock-timeout
error, never invokes the supplied operation (the result is the same for
every `operation`), and changes neither the lock tables nor the store. -/
theorem c7_wait_timeout_no_effect {σ α : Type} (lock : LockState) (store : σ)
    (key : String) (i : Nat) (t0 timeoutMs : Int) (waits : List Int)
    (operation : σ → Except PointError α × σ)
    (h : waitLoop (t0 + timeoutMs) waits = .timedOut) :
    withLockRun lock store key i t0 timeoutMs waits operation
      = (.error .lockWaitTimeout, lock, store) := by
  simp [withLockRun, h]

/-- Witness for C7: a waiter for `user:1` wakes at millisecond 6000 with a
5000 ms budget started at 0 and gives up; a charge operation passed in is
never run and the state is untouched. -/
theorem c7_wait_timeout_no_effect_witness :
    waitLoop ((0 : Int) + 5000) [6000] = .timedOut
    ∧ withLockRun ⟨[("user:1", 0)], [("user:1", 0)], [], []⟩ (⟨[], [], 0⟩ : DB)
        "user:1" 1 0 5000 [6000] (fun db => chargePoint db 1 10 1)
      = (.error .lockWaitTimeout, ⟨[("user:1", 0)], [("user:1", 0)], [], []⟩,
         (⟨[], [], 0⟩ : DB)) :=
  ⟨rfl,
   c7_wait_timeout_no_effect ⟨[("user:1", 0)], [("user:1", 0)], [], []⟩ ⟨[], [], 0⟩
     "user:1" 1 0 5000 [6000] (fun db => chargePoint db 1 10 1) rfl⟩

/-- Claim C8, evaluated at the run that breaks it: holder 1 acquires
`user:1`; its hold-timeout fires (force-release: the lock entry goes, the
`timeouts` entry stays); holder 2 then acquires; holder 1's operation now
completes normally and its `finally` cleanup runs. The cleanup deletes
holder 2's lock entry, deletes holder 2's `timeouts` entry and
`clearTimeout`s holder 2's timer (id 2) — anything but a no-op. -/
theorem c8_release_not_noop :
    releaseStep
        (acquireStep
          (holdFireStep (acquireStep ⟨[], [], [], []⟩ "user:1" 1) "user:1" 1)
          "user:1" 2)
        "user:1" 1
      = ⟨[], [], [2], [1, 1]⟩
    ∧ (acquireStep
        (holdFireStep (acquireStep ⟨[], [], [], []⟩ "user:1" 1) "user:1" 1)
        "user:1" 2).locks
      = [("user:1", 2)]
    ∧ (acquireStep
        (holdFireStep (acquireStep ⟨[], [], [], []⟩ "user:1" 1) "user:1" 1)
        "user:1" 2).timeouts
      = [("user:1", 2)] := by
  refine ⟨?_, ?_, ?_⟩ <;> rfl

/-- Claim C9 counterexample: no `withLock` call can use a wait bound
different from its hold bound — the negation of the claimed independence of
the two timeouts. -/
theorem c9_single_timeout_counterexample : ¬ timeoutsIndependent := by
  rintro ⟨t, ht⟩
  exact ht rfl

/-- Claim C9 (amended): `withLock` exposes a single timeout parameter
`timeoutMs` (default 5000 ms); the wait budget and the duration the hold
timer is armed for are both equal to it, so the two bounds always coincide
and cannot be set to different values for the same call. -/
theorem c9_single_timeout (t : Int) :
    (withLockTimeouts t).waitTimeoutMs = t
    ∧ (withLockTimeouts t).holdTimeoutMs = t
    ∧ withLockTimeouts 5000 = ⟨5000, 5000⟩ :=
  ⟨rfl, rfl, rfl⟩

end PointSys
